import Mathlib

/-!
Shallow embedding of the switchboard versioned persistence layer
(src/switchboard/store.py and src/switchboard/models.py).

Python dictionaries are modelled as association lists in which an update
of an existing key replaces the first binding in place and a new key is
appended at the end; a lookup returns the first binding.  Scalar Python
values are modelled by the inductive type PyVal.
-/

/-- Scalar Python values as they appear in store items and deltas. -/
inductive PyVal where
  | none
  | int (n : Int)
  | str (s : String)
deriving DecidableEq, Repr

/-- Python truthiness for scalar values: None, 0 and the empty string are falsy. -/
def pyTruthy : PyVal → Bool
  | .none => false
  | .int n => n != 0
  | .str s => s != ""

/-- Lookup of the first binding of a key, mirroring a Python dict read. -/
def aget {κ β : Type} [DecidableEq κ] : List (κ × β) → κ → Option β
  | [], _ => Option.none
  | (k, v) :: rest, k0 => if k = k0 then some v else aget rest k0

/-- Write of a key, replacing the first binding in place or appending a new one,
mirroring a Python dict write. -/
def aset {κ β : Type} [DecidableEq κ] : List (κ × β) → κ → β → List (κ × β)
  | [], k0, v0 => [(k0, v0)]
  | (k, v) :: rest, k0, v0 =>
      if k = k0 then (k0, v0) :: rest else (k, v) :: aset rest k0 v0

/-- Deletion of a key, mirroring the Python del statement on a dict. -/
def adel {κ β : Type} [DecidableEq κ] (d : List (κ × β)) (k0 : κ) : List (κ × β) :=
  d.filter (fun p => p.1 ≠ k0)

/-- The keys of a dict, in binding order. -/
def keys {κ β : Type} (d : List (κ × β)) : List κ :=
  d.map Prod.fst

/-- Bulk write, mirroring the Python dict update method. -/
def dupdate {κ β : Type} [DecidableEq κ] (d e : List (κ × β)) : List (κ × β) :=
  e.foldl (fun acc kv => aset acc kv.1 kv.2) d

/-- Lookup equality of two dicts, the content equality Python uses on dicts. -/
def dictEquiv {κ β : Type} [DecidableEq κ] (a b : List (κ × β)) : Prop :=
  ∀ k, aget a k = aget b k



/-!
Store embedding, from src/switchboard/store.py.

An item is a Python dict from field name to value; the in-memory store
keeps a dict from id to item.  The id allocated by save is a Python value
(the store uses integer ids), so the item map is keyed by PyVal.
-/

/-- A store item: a Python dict from field names to values. -/
abbrev Item := List (String × PyVal)

/-- The internal item map of InMemoryStore, keyed by id. -/
abbrev StoreItems := List (PyVal × Item)

/-- Helper withid from store.py: sets the id key on an item and returns it. -/
def withid (item : Item) (idv : PyVal) : Item :=
  aset item "id" idv

/-- InMemoryStore.save: pop the id key from the item; when it is missing or
None, allocate the length of the item map as the new id; store the item
under that id and return the id. -/
def InMemoryStore.save (items : StoreItems) (item : Item) : PyVal × StoreItems :=
  let idv := (aget item "id").getD PyVal.none
  let fields := adel item "id"
  let idv := if idv = PyVal.none then PyVal.int items.length else idv
  (idv, aset items idv fields)

/-- The match helper nested in InMemoryStore.filter: an item matches when every
filter key is present in the item with an equal value. -/
def InMemoryStore.matchItem (item : Item) (filterdict : Item) : Bool :=
  filterdict.all (fun kv => aget item kv.1 == some kv.2)

/-- InMemoryStore.filter: pop the id key from the filters; when an id is given
look the item up by id alone, returning it with the id set when the stored
item is truthy; otherwise scan the item map with the remaining filters. -/
def InMemoryStore.filter (items : StoreItems) (kwargs : Item) : List Item :=
  let idv := (aget kwargs "id").getD PyVal.none
  let rest := adel kwargs "id"
  if idv ≠ PyVal.none then
    match aget items idv with
    | some item => if item ≠ [] then [withid item idv] else []
    | Option.none => []
  else
    (items.filter (fun p => InMemoryStore.matchItem p.2 rest)).map
      (fun p => withid p.2 p.1)

/-- BaseStore.get: the first filtered item, or absent. -/
def InMemoryStore.get (items : StoreItems) (kwargs : Item) : Option Item :=
  (InMemoryStore.filter items kwargs).head?

/-- InMemoryStore.remove: pop every filtered item from the item map by its id. -/
def InMemoryStore.remove (items : StoreItems) (kwargs : Item) : StoreItems :=
  (InMemoryStore.filter items kwargs).foldl
    (fun acc item =>
      match aget item "id" with
      | some idv => adel acc idv
      | Option.none => acc)
    items

/-- InMemoryStore.count: the number of stored items. -/
def InMemoryStore.count (items : StoreItems) : Nat :=
  items.length

/-- BaseStore.get_or_create: look the item up with the kwargs; when found
return it with created set to false; otherwise merge the defaults into the
kwargs (defaults win), save, and return the item carrying the allocated id
with created set to true.  The save pops the id key from the merged dict
before the id is set on the returned item, as the Python code mutates the
same dict object. -/
def BaseStore.get_or_create (items : StoreItems) (defaults kwargs : Item) :
    (Item × Bool) × StoreItems :=
  match InMemoryStore.get items kwargs with
  | some item => ((item, false), items)
  | Option.none =>
      let item := dupdate kwargs defaults
      let r := InMemoryStore.save items item
      ((withid (adel item "id") r.1, true), r.2)

/-- The where-clause built by SQLAlchemyStore private match helper, as the row
predicate it denotes: an id filter takes precedence and drops every other
filter key; otherwise all remaining filters must match; no filters match
every row. -/
def SQLAlchemyStore.matchPred (filterdict : Item) : Item → Bool :=
  let idv := (aget filterdict "id").getD PyVal.none
  let rest := adel filterdict "id"
  if idv ≠ PyVal.none then fun row => aget row "id" == some idv
  else if rest ≠ [] then fun row => rest.all (fun kv => aget row kv.1 == some kv.2)
  else fun _ => true

/-!
Versioning embedding, from the VersioningModel and Switch classes in
src/switchboard/models.py.  The private diff helper fetches the current
snapshot through the store and the previous snapshot through the replay of
the shadow log; here those two fetched snapshots are the arguments, exactly
as the repository tests stub them.  A timestamp is modelled as a natural
number, which carries the ordering the code uses.
-/

/-- The delta dict built by the private diff method of VersioningModel: added
and deleted are field maps, changed maps a field to its pair of old and new
values. -/
structure Delta where
  added : Item
  deleted : Item
  changed : List (String × (PyVal × PyVal))
deriving DecidableEq, Repr

/-- One record of the shadow log, as written by save_version: the owning
entity id, a timestamp, the delta and the extra keyword metadata. -/
structure VersionDoc where
  switch_id : PyVal
  timestamp : Nat
  delta : Delta
  extra : Item
deriving DecidableEq, Repr

/-- Python truthiness of an optional dict: None and the empty dict are falsy. -/
def dictTruthy (o : Option Item) : Bool :=
  match o with
  | some d => !d.isEmpty
  | Option.none => false

/-- The field comparison of the diff method when both snapshots are truthy:
added holds the current values of fields only in current, deleted holds the
previous values of fields only in previous, changed holds the pairs of old
and new values of shared fields whose values differ. -/
def VersioningModel.diffFields (prev curr : Item) : Delta :=
  let current_fields := keys curr
  let previous_fields := keys prev
  let added := current_fields.filter (fun f => !previous_fields.contains f)
  let deleted := previous_fields.filter (fun f => !current_fields.contains f)
  let changed := current_fields.filter
    (fun f => previous_fields.contains f && aget prev f != aget curr f)
  { added := added.map (fun k => (k, (aget curr k).getD PyVal.none))
    deleted := deleted.map (fun k => (k, (aget prev k).getD PyVal.none))
    changed := changed.map
      (fun k => (k, ((aget prev k).getD PyVal.none, (aget curr k).getD PyVal.none))) }

/-- The private diff method of VersioningModel on the two fetched snapshots:
field comparison when both are truthy, a full deletion when only the
previous one is, a full addition when only the current one is, and the
empty delta otherwise. -/
def VersioningModel.diffModel (curr prev : Option Item) : Delta :=
  if dictTruthy prev && dictTruthy curr then
    VersioningModel.diffFields (prev.getD []) (curr.getD [])
  else if dictTruthy prev then
    { added := [], deleted := prev.getD [], changed := [] }
  else if dictTruthy curr then
    { added := curr.getD [], deleted := [], changed := [] }
  else
    { added := [], deleted := [], changed := [] }

/-- The guard of save_version: the delta dict itself is always truthy, so the
record is written exactly when one of the three maps is non-empty. -/
def deltaTruthy (d : Delta) : Bool :=
  !d.added.isEmpty || !d.deleted.isEmpty || !d.changed.isEmpty

/-- save_version: compute the delta of the two fetched snapshots and, only
when it is truthy, append one record carrying the entity id, the timestamp,
the delta and the extra keyword metadata to the shadow log. -/
def VersioningModel.save_version (idv : PyVal) (ts : Nat) (extra : Item)
    (curr prev : Option Item) (log : List VersionDoc) : List VersionDoc :=
  let delta := VersioningModel.diffModel curr prev
  if deltaTruthy delta then
    log ++ [{ switch_id := idv, timestamp := ts, delta := delta, extra := extra }]
  else
    log

/-- The loop body of previous_version: update with the added map, delete each
deleted key that is present, then write the new value of each changed
field. -/
def VersioningModel.replayStep (previous : Item) (v : VersionDoc) : Item :=
  let previous := dupdate previous v.delta.added
  let previous := v.delta.deleted.foldl
    (fun p kv => if (aget p kv.1).isSome then adel p kv.1 else p) previous
  v.delta.changed.foldl (fun p kv => aset p kv.1 kv.2.2) previous

/-- The ascending timestamp order previous_version sorts by. -/
def tsLe (a b : VersionDoc) : Prop :=
  a.timestamp ≤ b.timestamp

instance : DecidableRel tsLe := fun a b => Nat.decLe a.timestamp b.timestamp

/-- previous_version for an entity carrying an id.  Modelled from the spec for
the shadow store lookup: the versioned store and its find method are not
under src, and per the spec the find fetches all log entries carrying the
entity id.  The list conversion, the ascending stable sort by timestamp,
the replay fold from the empty dict and the wrapping of a non-empty result
follow previous_version in models.py; insertionSort is a stable sort, as
the Python list sort is. -/
def VersioningModel.previous_version (idv : PyVal) (log : List VersionDoc) :
    Option Item :=
  let versions := log.filter (fun v => v.switch_id == idv)
  let previous : Item :=
    if versions.isEmpty then []
    else (List.insertionSort tsLe versions).foldl VersioningModel.replayStep []
  if previous.isEmpty then Option.none else some previous

/-- The descending timestamp order list_versions sorts by. -/
def tsGe (a b : VersionDoc) : Prop :=
  b.timestamp ≤ a.timestamp

instance : DecidableRel tsGe := fun a b => Nat.decLe b.timestamp a.timestamp

/-- The value returned by list_versions: either the dict with the single key
versions bound to an empty dict, or the list of log records. -/
inductive ListVersionsResult where
  | dictEmptyVersions
  | versions (vs : List VersionDoc)
deriving DecidableEq, Repr

/-- list_versions from models.py.  Modelled from the spec for the shadow store
lookup and the cursor sort, which are not under src: the find fetches all
log entries carrying the entity id and the sort orders them by descending
timestamp.  The falsy branch returning the dict with an empty versions
entry is taken verbatim from the source. -/
def Switch.list_versions (idv : PyVal) (log : List VersionDoc) :
    ListVersionsResult :=
  let versions := log.filter (fun v => v.switch_id == idv)
  if versions.isEmpty then ListVersionsResult.dictEmptyVersions
  else ListVersionsResult.versions (List.insertionSort tsGe versions)

/-!
Switch condition embedding, from Switch.add_condition and
Switch.remove_condition in src/switchboard/models.py.  The nested value map
goes namespace to field name to a list of entries; each entry written by
add_condition is the two-element Python list of a flag and a condition
string, while the membership test of the guard compares the bare condition
string against those entries.  CVal keeps both shapes apart the same way
Python equality does: a string never equals a two-element list.
-/

/-- An element of a condition list: either a bare string or the two-element
list of a flag and a condition payload that add_condition appends. -/
inductive CVal where
  | vstr (s : String)
  | vpair (flag : String) (payload : String)
deriving DecidableEq, Repr

abbrev CondList := List CVal

abbrev NsMap := List (String × CondList)

abbrev SwitchValue := List (String × NsMap)

/-- The INCLUDE flag constant. -/
def INCLUDE : String := "i"

/-- The EXCLUDE flag constant. -/
def EXCLUDE : String := "e"

/-- Switch.add_condition on the value map: ensure the namespace and field
sub-maps exist, then append the flagged entry unless the bare condition
string is an element of the condition list. -/
def Switch.add_condition (value : SwitchValue) (ns field_name condition : String)
    (exclude : Bool) : SwitchValue :=
  let value := if (aget value ns).isNone then aset value ns [] else value
  let nsm := (aget value ns).getD []
  let nsm := if (aget nsm field_name).isNone then aset nsm field_name [] else nsm
  let lst := (aget nsm field_name).getD []
  let lst :=
    if lst.contains (CVal.vstr condition) then lst
    else lst ++ [CVal.vpair (if exclude then EXCLUDE else INCLUDE) condition]
  aset value ns (aset nsm field_name lst)

/-- Switch.remove_condition on the value map: return unchanged when the
namespace or field is absent; otherwise drop the entries whose second
element equals the condition, and prune the field and then the namespace
when they become empty. -/
def Switch.remove_condition (value : SwitchValue) (ns field_name condition : String) :
    SwitchValue :=
  match aget value ns with
  | Option.none => value
  | some nsm =>
      match aget nsm field_name with
      | Option.none => value
      | some lst =>
          let lst := lst.filter (fun c =>
            match c with
            | CVal.vpair _ p => p ≠ condition
            | CVal.vstr _ => true)
          if lst.isEmpty then
            let nsm := adel (aset nsm field_name lst) field_name
            if nsm.isEmpty then adel value ns else aset value ns nsm
          else
            aset value ns (aset nsm field_name lst)

/-!
Call embedding for the entity level get, from Model.get in models.py and the
BaseStore get signature in store.py.  A Python call either returns a value
or raises a TypeError when the argument list does not fit the signature.
-/

/-- The outcome of a Python call: a value, or a TypeError raised because the
positional arguments do not fit the signature of the callee. -/
inductive PyResult (α : Type) where
  | ok (a : α)
  | typeError
deriving DecidableEq, Repr

/-- The BaseStore get method as a callable: its signature accepts keyword
filters only, so any positional argument raises a TypeError. -/
def BaseStore.getCallable (items : StoreItems) (posArgs : List Item)
    (kwargs : Item) : PyResult (Option Item) :=
  match posArgs with
  | [] => PyResult.ok (InMemoryStore.get items kwargs)
  | _ => PyResult.typeError

/-- Model.get: passes the whole keyword dict as a single positional argument
to the store get, with no keyword arguments. -/
def Model.get (items : StoreItems) (kwargs : Item) : PyResult (Option Item) :=
  BaseStore.getCallable items [kwargs] []

/-- The fetch of the prior state in Model.save: when the entity carries a
truthy id, fetch the previous item through Model.get; otherwise the
previous item is None.  A missing id attribute is the None default. -/
def Model.saveFetchPrevious (items : StoreItems) (idAttr : Option PyVal) :
    PyResult (Option Item) :=
  let idv := idAttr.getD PyVal.none
  if pyTruthy idv then Model.get items [("id", idv)] else PyResult.ok Option.none

/-- The four-delta log of the replay example, owned by the entity with id 7. -/
def exampleLog : List VersionDoc := [
  { switch_id := PyVal.int 7, timestamp := 1,
    delta := { added := [("a", PyVal.int 1), ("b", PyVal.int 2)],
               deleted := [], changed := [] },
    extra := [] },
  { switch_id := PyVal.int 7, timestamp := 2,
    delta := { added := [], deleted := [],
               changed := [("b", (PyVal.int 2, PyVal.int 3))] },
    extra := [] },
  { switch_id := PyVal.int 7, timestamp := 3,
    delta := { added := [("c", PyVal.int 4)], deleted := [], changed := [] },
    extra := [] },
  { switch_id := PyVal.int 7, timestamp := 4,
    delta := { added := [], deleted := [("a", PyVal.int 1)], changed := [] },
    extra := [] }]

instance : IsTotal VersionDoc tsGe :=
  ⟨fun a b => le_total b.timestamp a.timestamp⟩

instance : IsTrans VersionDoc tsGe :=
  ⟨fun _ _ _ h1 h2 => le_trans h2 h1⟩

section AssocLemmas

variable {κ β : Type} [DecidableEq κ]

theorem aget_aset_self (d : List (κ × β)) (k : κ) (v : β) :
    aget (aset d k v) k = some v := by
  induction d with
  | nil => simp [aset, aget]
  | cons p rest ih =>
      obtain ⟨k', v'⟩ := p
      by_cases h : k' = k
      · simp [aset, aget, h]
      · simp [aset, aget, h, ih]

theorem aget_aset_ne (d : List (κ × β)) (k k0 : κ) (v : β) (h : k ≠ k0) :
    aget (aset d k v) k0 = aget d k0 := by
  induction d with
  | nil => simp [aset, aget, h]
  | cons p rest ih =>
      obtain ⟨k', v'⟩ := p
      by_cases h' : k' = k
      · subst h'
        simp [aset, aget, h]
      · simp [aset, aget, h', ih]

theorem aget_adel_self (d : List (κ × β)) (k : κ) :
    aget (adel d k) k = Option.none := by
  induction d with
  | nil => rfl
  | cons p rest ih =>
      obtain ⟨k', v'⟩ := p
      by_cases h : k' = k
      · subst h
        simpa [adel, List.filter_cons] using ih
      · simpa [adel, List.filter_cons, h, aget] using ih

theorem aget_adel_ne (d : List (κ × β)) (k k0 : κ) (h : k ≠ k0) :
    aget (adel d k) k0 = aget d k0 := by
  induction d with
  | nil => rfl
  | cons p rest ih =>
      obtain ⟨k', v'⟩ := p
      by_cases h' : k' = k
      · subst h'
        have hne : ¬ k' = k0 := h
        simpa [adel, List.filter_cons, aget, hne] using ih
      · by_cases h0 : k' = k0
        · simp [adel, List.filter_cons, aget, h', h0, Ne.symm h]
        · simpa [adel, List.filter_cons, aget, h', h0] using ih

theorem aget_eq_none_iff (d : List (κ × β)) (k : κ) :
    aget d k = Option.none ↔ k ∉ keys d := by
  induction d with
  | nil => simp [aget, keys]
  | cons p rest ih =>
      obtain ⟨k', v'⟩ := p
      by_cases h : k' = k
      · simp [aget, keys, h]
      · simp [aget, keys, h, ih, Ne.symm h]

theorem mem_of_aget_eq_some {d : List (κ × β)} {k : κ} {v : β}
    (h : aget d k = some v) : (k, v) ∈ d := by
  induction d with
  | nil => simp [aget] at h
  | cons p rest ih =>
      obtain ⟨k', v'⟩ := p
      by_cases hk : k' = k
      · subst hk
        simp [aget] at h
        simp [h]
      · simp [aget, hk] at h
        simp [ih h]

omit [DecidableEq κ] in
theorem mem_keys_of_mem {d : List (κ × β)} {k : κ} {v : β}
    (h : (k, v) ∈ d) : k ∈ keys d :=
  List.mem_map.mpr ⟨(k, v), h, rfl⟩

theorem aget_eq_some_of_mem_nodup {d : List (κ × β)} {k : κ} {v : β}
    (hd : (keys d).Nodup) (h : (k, v) ∈ d) : aget d k = some v := by
  induction d with
  | nil => simp at h
  | cons p rest ih =>
      obtain ⟨k', v'⟩ := p
      have hd' : k' ∉ keys rest ∧ (keys rest).Nodup := by
        simpa [keys] using hd
      rcases List.mem_cons.mp h with h1 | h2
      · cases h1
        simp [aget]
      · have hne : k' ≠ k := by
          intro he
          exact hd'.1 (he ▸ mem_keys_of_mem h2)
        simp [aget, hne, ih hd'.2 h2]

theorem aset_eq_self {d : List (κ × β)} {k : κ} {v : β}
    (h : aget d k = some v) : aset d k v = d := by
  induction d with
  | nil => simp [aget] at h
  | cons p rest ih =>
      obtain ⟨k', v'⟩ := p
      by_cases hk : k' = k
      · subst hk
        simp [aget] at h
        simp [aset, h]
      · simp [aget, hk] at h
        simp [aset, hk, ih h]

theorem aset_of_aget_none {d : List (κ × β)} {k : κ} (v : β)
    (h : aget d k = Option.none) : aset d k v = d ++ [(k, v)] := by
  induction d with
  | nil => simp [aset]
  | cons p rest ih =>
      obtain ⟨k', v'⟩ := p
      by_cases hk : k' = k
      · simp [aget, hk] at h
      · simp [aget, hk] at h
        simp [aset, hk, ih h]

theorem adel_of_aget_none {d : List (κ × β)} {k : κ}
    (h : aget d k = Option.none) : adel d k = d := by
  induction d with
  | nil => rfl
  | cons p rest ih =>
      obtain ⟨k', v'⟩ := p
      by_cases hk : k' = k
      · simp [aget, hk] at h
      · simp [aget, hk] at h
        have hrest := ih h
        rw [adel, List.filter_cons, if_pos (by simp [hk])]
        exact congrArg (List.cons (k', v')) hrest

theorem adel_append (d e : List (κ × β)) (k : κ) :
    adel (d ++ e) k = adel d k ++ adel e k := by
  simp [adel, List.filter_append]

theorem aget_append_of_none {d : List (κ × β)} (e : List (κ × β)) {k : κ}
    (h : aget d k = Option.none) : aget (d ++ e) k = aget e k := by
  induction d with
  | nil => simp
  | cons p rest ih =>
      obtain ⟨k', v'⟩ := p
      by_cases hk : k' = k
      · simp [aget, hk] at h
      · simp [aget, hk] at h
        simpa [aget, hk] using ih h

theorem aget_append_of_some {d : List (κ × β)} (e : List (κ × β)) {k : κ} {v : β}
    (h : aget d k = some v) : aget (d ++ e) k = some v := by
  induction d with
  | nil => simp [aget] at h
  | cons p rest ih =>
      obtain ⟨k', v'⟩ := p
      by_cases hk : k' = k
      · simp [aget, hk] at h
        simp [aget, hk, h]
      · simp [aget, hk] at h
        simpa [aget, hk] using ih h

theorem aset_append_of_none {d : List (κ × β)} (e : List (κ × β)) {k : κ} (v : β)
    (h : aget d k = Option.none) : aset (d ++ e) k v = d ++ aset e k v := by
  induction d with
  | nil => simp
  | cons p rest ih =>
      obtain ⟨k', v'⟩ := p
      by_cases hk : k' = k
      · simp [aget, hk] at h
      · simp [aget, hk] at h
        simp [aset, hk, ih h]

theorem aset_aset (d : List (κ × β)) (k : κ) (a b : β) :
    aset (aset d k a) k b = aset d k b := by
  induction d with
  | nil => simp [aset]
  | cons p rest ih =>
      obtain ⟨k', v'⟩ := p
      by_cases hk : k' = k
      · simp [aset, hk]
      · simp [aset, hk, ih]

theorem aget_dupdate (d : List (κ × β)) {e : List (κ × β)} (k : κ)
    (he : (keys e).Nodup) :
    aget (dupdate d e) k =
      match aget e k with
      | some v => some v
      | Option.none => aget d k := by
  induction e generalizing d with
  | nil => simp [dupdate, aget]
  | cons p rest ih =>
      obtain ⟨k', v'⟩ := p
      have he' : k' ∉ keys rest ∧ (keys rest).Nodup := by
        simpa [keys] using he
      have step : dupdate d ((k', v') :: rest) = dupdate (aset d k' v') rest := by
        simp [dupdate]
      rw [step]
      by_cases hk : k' = k
      · subst hk
        have hrest : aget rest k' = Option.none :=
          (aget_eq_none_iff rest k').mpr he'.1
        rw [ih (aset d k' v') he'.2]
        simp [aget, hrest, aget_aset_self]
      · rw [ih (aset d k' v') he'.2]
        simp [aget, hk, aget_aset_ne d k' k v' hk]

end AssocLemmas

/-!
Helper lemmas about the diff computation and the replay fold.
-/

theorem aget_map_keyfn {κ β : Type} [DecidableEq κ] (l : List κ) (f : κ → β) (k : κ) :
    aget (l.map (fun k0 => (k0, f k0))) k
      = if k ∈ l then some (f k) else Option.none := by
  induction l with
  | nil => simp [aget]
  | cons a l ih =>
      by_cases h : a = k
      · subst h
        simp [aget]
      · simp [aget, h, ih, Ne.symm h]

theorem contains_iff_mem_cval {l : List CVal} {a : CVal} :
    l.contains a = true ↔ a ∈ l :=
  List.elem_iff

theorem contains_iff_mem_str {l : List String} {a : String} :
    l.contains a = true ↔ a ∈ l :=
  List.elem_iff

theorem diffFields_added_aget (prev curr : Item) (k : String) :
    aget (VersioningModel.diffFields prev curr).added k
      = if k ∈ keys curr ∧ k ∉ keys prev
        then some ((aget curr k).getD PyVal.none) else Option.none := by
  simp only [VersioningModel.diffFields]
  rw [aget_map_keyfn]
  by_cases h : k ∈ keys curr ∧ k ∉ keys prev
  · rw [if_pos, if_pos h]
    refine List.mem_filter.mpr ⟨h.1, ?_⟩
    simp [contains_iff_mem_str, h.2]
  · rw [if_neg, if_neg h]
    intro hm
    obtain ⟨h1, h2⟩ := List.mem_filter.mp hm
    simp [contains_iff_mem_str] at h2
    exact h ⟨h1, h2⟩

theorem diffFields_deleted_aget (prev curr : Item) (k : String) :
    aget (VersioningModel.diffFields prev curr).deleted k
      = if k ∈ keys prev ∧ k ∉ keys curr
        then some ((aget prev k).getD PyVal.none) else Option.none := by
  simp only [VersioningModel.diffFields]
  rw [aget_map_keyfn]
  by_cases h : k ∈ keys prev ∧ k ∉ keys curr
  · rw [if_pos, if_pos h]
    refine List.mem_filter.mpr ⟨h.1, ?_⟩
    simp [contains_iff_mem_str, h.2]
  · rw [if_neg, if_neg h]
    intro hm
    obtain ⟨h1, h2⟩ := List.mem_filter.mp hm
    simp [contains_iff_mem_str] at h2
    exact h ⟨h1, h2⟩

theorem diffFields_changed_aget (prev curr : Item) (k : String) :
    aget (VersioningModel.diffFields prev curr).changed k
      = if k ∈ keys curr ∧ k ∈ keys prev ∧ aget prev k ≠ aget curr k
        then some ((aget prev k).getD PyVal.none, (aget curr k).getD PyVal.none)
        else Option.none := by
  simp only [VersioningModel.diffFields]
  rw [aget_map_keyfn]
  by_cases h : k ∈ keys curr ∧ k ∈ keys prev ∧ aget prev k ≠ aget curr k
  · rw [if_pos, if_pos h]
    refine List.mem_filter.mpr ⟨h.1, ?_⟩
    simp [contains_iff_mem_str, h.2.1, bne_iff_ne, h.2.2]
  · rw [if_neg, if_neg h]
    intro hm
    obtain ⟨h1, h2⟩ := List.mem_filter.mp hm
    simp [contains_iff_mem_str, bne_iff_ne] at h2
    exact h ⟨h1, h2.1, h2.2⟩

theorem dictTruthy_of_ne_nil {d : Item} (h : d ≠ []) : dictTruthy (some d) = true := by
  simp [dictTruthy, List.isEmpty_iff, h]

theorem diffModel_both (prev curr : Item) (hp : prev ≠ []) (hc : curr ≠ []) :
    VersioningModel.diffModel (some curr) (some prev)
      = VersioningModel.diffFields prev curr := by
  simp [VersioningModel.diffModel, dictTruthy_of_ne_nil hp, dictTruthy_of_ne_nil hc]

theorem aget_ne_nil_of_mem_keys {d : Item} {k : String} (h : k ∈ keys d) :
    ∃ v, aget d k = some v := by
  cases hv : aget d k with
  | none => exact absurd ((aget_eq_none_iff d k).mp hv) (fun hn => hn h)
  | some v => exact ⟨v, rfl⟩

/-- The diff of two dicts with equal lookups is the empty delta; this backs
both the equal-states clause and the no-op save clause. -/
theorem diffModel_equiv_empty (prev curr : Item) (h : dictEquiv prev curr) :
    VersioningModel.diffModel (some curr) (some prev) = ⟨[], [], []⟩ := by
  have hmem : ∀ k, k ∈ keys prev ↔ k ∈ keys curr := by
    intro k
    constructor
    · intro hk
      obtain ⟨v, hv⟩ := aget_ne_nil_of_mem_keys hk
      have := (h k).symm.trans hv
      by_contra hn
      rw [(aget_eq_none_iff curr k).mpr hn] at this
      cases this
    · intro hk
      obtain ⟨v, hv⟩ := aget_ne_nil_of_mem_keys hk
      have := (h k).trans hv
      by_contra hn
      rw [(aget_eq_none_iff prev k).mpr hn] at this
      cases this
  by_cases hp : prev = []
  · by_cases hcn : curr = []
    · subst hp; subst hcn
      simp [VersioningModel.diffModel, dictTruthy]
    · obtain ⟨p, rest⟩ := (List.exists_cons_of_ne_nil hcn).imp (fun a ha => ha)
      obtain ⟨rest0, hrest⟩ := rest
      exfalso
      have hk : p.1 ∈ keys curr := by
        rw [hrest]
        simp [keys]
      have := (hmem p.1).mpr hk
      subst hp
      simp [keys] at this
  · by_cases hcn : curr = []
    · obtain ⟨p, rest⟩ := (List.exists_cons_of_ne_nil hp).imp (fun a ha => ha)
      obtain ⟨rest0, hrest⟩ := rest
      exfalso
      have hk : p.1 ∈ keys prev := by
        rw [hrest]
        simp [keys]
      have := (hmem p.1).mp hk
      subst hcn
      simp [keys] at this
    · rw [diffModel_both prev curr hp hcn]
      have hadded : (keys curr).filter (fun f => !(keys prev).contains f) = [] := by
        rw [List.filter_eq_nil_iff]
        intro a ha
        simp [contains_iff_mem_str]
        exact (hmem a).mpr ha
      have hdeleted : (keys prev).filter (fun f => !(keys curr).contains f) = [] := by
        rw [List.filter_eq_nil_iff]
        intro a ha
        simp [contains_iff_mem_str]
        exact (hmem a).mp ha
      have hchanged : (keys curr).filter
          (fun f => (keys prev).contains f && aget prev f != aget curr f) = [] := by
        rw [List.filter_eq_nil_iff]
        intro a ha
        simp [contains_iff_mem_str, bne_iff_ne]
        intro _
        exact h a
      simp only [VersioningModel.diffFields]
      rw [hadded, hdeleted, hchanged]
      rfl

/-- C2: the diff of the current and previous snapshots has added holding the
fields present only in current with their current values, deleted holding
the fields present only in previous with their previous values, and changed
holding the shared fields whose values differ as pairs of old and new
value; an absent current with an existing previous is a full deletion, an
absent previous with an existing current a full addition, two absent states
give the empty delta, and two states with equal lookups always give the
empty delta. -/
theorem VersioningModel.diffModel_spec :
    (∀ (prev curr : Item) (k : String) (v : PyVal), prev ≠ [] → curr ≠ [] →
        (aget (VersioningModel.diffModel (some curr) (some prev)).added k = some v
          ↔ aget curr k = some v ∧ aget prev k = Option.none))
  ∧ (∀ (prev curr : Item) (k : String) (v : PyVal), prev ≠ [] → curr ≠ [] →
        (aget (VersioningModel.diffModel (some curr) (some prev)).deleted k = some v
          ↔ aget prev k = some v ∧ aget curr k = Option.none))
  ∧ (∀ (prev curr : Item) (k : String) (o n : PyVal), prev ≠ [] → curr ≠ [] →
        (aget (VersioningModel.diffModel (some curr) (some prev)).changed k = some (o, n)
          ↔ aget prev k = some o ∧ aget curr k = some n ∧ o ≠ n))
  ∧ (∀ prev : Item, prev ≠ [] →
        VersioningModel.diffModel Option.none (some prev) = ⟨[], prev, []⟩)
  ∧ (∀ curr : Item, curr ≠ [] →
        VersioningModel.diffModel (some curr) Option.none = ⟨curr, [], []⟩)
  ∧ VersioningModel.diffModel Option.none Option.none = ⟨[], [], []⟩
  ∧ (∀ prev curr : Item, dictEquiv prev curr →
        VersioningModel.diffModel (some curr) (some prev) = ⟨[], [], []⟩) := by
  refine ⟨?_, ?_, ?_, ?_, ?_, ?_, ?_⟩
  · intro prev curr k v hp hc
    rw [diffModel_both prev curr hp hc, diffFields_added_aget]
    by_cases h : k ∈ keys curr ∧ k ∉ keys prev
    · obtain ⟨w, hw⟩ := aget_ne_nil_of_mem_keys h.1
      have hpn : aget prev k = Option.none := (aget_eq_none_iff prev k).mpr h.2
      rw [if_pos h]
      simp [hw, hpn]
    · rw [if_neg h]
      constructor
      · intro he; cases he
      · rintro ⟨hcv, hpn⟩
        exfalso
        apply h
        constructor
        · by_contra hn
          rw [(aget_eq_none_iff curr k).mpr hn] at hcv
          cases hcv
        · exact (aget_eq_none_iff prev k).mp hpn
  · intro prev curr k v hp hc
    rw [diffModel_both prev curr hp hc, diffFields_deleted_aget]
    by_cases h : k ∈ keys prev ∧ k ∉ keys curr
    · obtain ⟨w, hw⟩ := aget_ne_nil_of_mem_keys h.1
      have hcn : aget curr k = Option.none := (aget_eq_none_iff curr k).mpr h.2
      rw [if_pos h]
      simp [hw, hcn]
    · rw [if_neg h]
      constructor
      · intro he; cases he
      · rintro ⟨hpv, hcn⟩
        exfalso
        apply h
        constructor
        · by_contra hn
          rw [(aget_eq_none_iff prev k).mpr hn] at hpv
          cases hpv
        · exact (aget_eq_none_iff curr k).mp hcn
  · intro prev curr k o n hp hc
    rw [diffModel_both prev curr hp hc, diffFields_changed_aget]
    by_cases h : k ∈ keys curr ∧ k ∈ keys prev ∧ aget prev k ≠ aget curr k
    · obtain ⟨w, hw⟩ := aget_ne_nil_of_mem_keys h.1
      obtain ⟨u, hu⟩ := aget_ne_nil_of_mem_keys h.2.1
      have hne : u ≠ w := by
        intro he
        exact h.2.2 (by rw [hw, hu, he])
      rw [if_pos h]
      simp only [hw, hu, Option.getD_some, Option.some.injEq, Prod.mk.injEq]
      constructor
      · rintro ⟨rfl, rfl⟩
        exact ⟨rfl, rfl, hne⟩
      · rintro ⟨ho, hn, _⟩
        exact ⟨ho, hn⟩
    · rw [if_neg h]
      constructor
      · intro he; cases he
      · rintro ⟨hpo, hcn, hon⟩
        exfalso
        apply h
        refine ⟨?_, ?_, ?_⟩
        · by_contra hn
          rw [(aget_eq_none_iff curr k).mpr hn] at hcn
          cases hcn
        · by_contra hn
          rw [(aget_eq_none_iff prev k).mpr hn] at hpo
          cases hpo
        · rw [hpo, hcn]
          intro he
          exact hon (Option.some.injEq .. ▸ he)
  · intro prev hp
    simp [VersioningModel.diffModel, dictTruthy_of_ne_nil hp, dictTruthy]
  · intro curr hc
    simp [VersioningModel.diffModel, dictTruthy_of_ne_nil hc, dictTruthy]
  · simp [VersioningModel.diffModel, dictTruthy]
  · intro prev curr h
    exact diffModel_equiv_empty prev curr h

/-- Witness for the diff theorem at a concrete input: an absent current with
an existing previous state is reported as a full deletion. -/
theorem VersioningModel.diffModel_spec_witness :
    VersioningModel.diffModel Option.none (some [("a", PyVal.int 1)])
      = ⟨[], [("a", PyVal.int 1)], []⟩ :=
  VersioningModel.diffModel_spec.2.2.2.1 [("a", PyVal.int 1)] (by decide)

/-- C3: save_version appends exactly one record carrying the entity id, the
timestamp, the computed delta and the extra metadata exactly when one of
the three delta maps is non-empty, and appends nothing when the current
and previous snapshots have equal lookups, leaving the log count
unchanged. -/
theorem VersioningModel.save_version_spec :
    (∀ (idv : PyVal) (ts : Nat) (extra : Item) (curr prev : Option Item)
        (log : List VersionDoc),
        deltaTruthy (VersioningModel.diffModel curr prev) = true →
          VersioningModel.save_version idv ts extra curr prev log
            = log ++ [{ switch_id := idv, timestamp := ts,
                        delta := VersioningModel.diffModel curr prev, extra := extra }]
          ∧ (VersioningModel.save_version idv ts extra curr prev log).length
              = log.length + 1)
  ∧ (∀ (idv : PyVal) (ts : Nat) (extra : Item) (curr prev : Option Item)
        (log : List VersionDoc),
        deltaTruthy (VersioningModel.diffModel curr prev) = false →
          VersioningModel.save_version idv ts extra curr prev log = log)
  ∧ (∀ (idv : PyVal) (ts : Nat) (extra : Item) (prev curr : Item)
        (log : List VersionDoc), dictEquiv prev curr →
          VersioningModel.save_version idv ts extra (some curr) (some prev) log = log
          ∧ (VersioningModel.save_version idv ts extra (some curr) (some prev) log).length
              = log.length) := by
  refine ⟨?_, ?_, ?_⟩
  · intro idv ts extra curr prev log h
    constructor
    · simp [VersioningModel.save_version, h]
    · simp [VersioningModel.save_version, h]
  · intro idv ts extra curr prev log h
    simp [VersioningModel.save_version, h]
  · intro idv ts extra prev curr log h
    have hd := diffModel_equiv_empty prev curr h
    have hf : deltaTruthy (VersioningModel.diffModel (some curr) (some prev)) = false := by
      rw [hd]
      rfl
    constructor
    · simp [VersioningModel.save_version, hf]
    · simp [VersioningModel.save_version, hf]

/-- Witness for the save_version theorem at a concrete input: saving an
unchanged state appends nothing. -/
theorem VersioningModel.save_version_spec_witness :
    VersioningModel.save_version (PyVal.int 1) 5 [] (some [("a", PyVal.int 1)])
        (some [("a", PyVal.int 1)]) [] = [] :=
  (VersioningModel.save_version_spec.2.2 (PyVal.int 1) 5 [] [("a", PyVal.int 1)]
    [("a", PyVal.int 1)] [] (fun _ => rfl)).1

theorem aget_map_snd {κ β γ : Type} [DecidableEq κ] (l : List (κ × β)) (f : β → γ)
    (k : κ) :
    aget (l.map (fun kv => (kv.1, f kv.2))) k = (aget l k).map f := by
  induction l with
  | nil => simp [aget]
  | cons q rest ih =>
      obtain ⟨k', v'⟩ := q
      by_cases hk : k' = k
      · simp [aget, hk]
      · simp [aget, hk, ih]

theorem aget_delfold (dl : Item) (p0 : Item) (k : String) :
    aget (dl.foldl (fun p kv => if (aget p kv.1).isSome then adel p kv.1 else p) p0) k
      = if k ∈ keys dl then Option.none else aget p0 k := by
  induction dl generalizing p0 with
  | nil => simp [keys]
  | cons q rest ih =>
      obtain ⟨k', v'⟩ := q
      rw [List.foldl_cons, ih]
      by_cases hk : k' = k
      · subst hk
        have hp1 : aget (if (aget p0 k').isSome then adel p0 k' else p0) k'
            = Option.none := by
          by_cases hs : (aget p0 k').isSome = true
          · rw [if_pos hs]
            exact aget_adel_self p0 k'
          · rw [if_neg hs]
            exact Option.not_isSome_iff_eq_none.mp (by simpa using hs)
        rw [hp1]
        simp [keys]
      · have hp1 : aget (if (aget p0 k').isSome then adel p0 k' else p0) k
            = aget p0 k := by
          by_cases hs : (aget p0 k').isSome = true
          · rw [if_pos hs]
            exact aget_adel_ne p0 k' k hk
          · rw [if_neg hs]
        rw [hp1]
        by_cases hm : k ∈ keys rest
        · simp only [keys] at hm ⊢
          simp [hm]
        · simp only [keys] at hm ⊢
          simp [hm, Ne.symm hk]

theorem aget_asetfold (cl : List (String × (PyVal × PyVal))) (p0 : Item) (k : String)
    (hnc : (keys cl).Nodup) :
    aget (cl.foldl (fun p kv => aset p kv.1 kv.2.2) p0) k
      = match aget cl k with
        | some pr => some pr.2
        | Option.none => aget p0 k := by
  have hfold : cl.foldl (fun p kv => aset p kv.1 kv.2.2) p0
      = dupdate p0 (cl.map (fun kv => (kv.1, kv.2.2))) := by
    rw [dupdate, List.foldl_map]
  have hkeys : (keys (cl.map (fun kv => (kv.1, kv.2.2)))).Nodup := by
    simpa [keys, List.map_map, Function.comp] using hnc
  rw [hfold, aget_dupdate p0 k hkeys]
  rw [show (fun kv : String × (PyVal × PyVal) => (kv.1, kv.2.2))
        = (fun kv : String × (PyVal × PyVal) => (kv.1, Prod.snd kv.2)) from rfl]
  rw [aget_map_snd cl Prod.snd k]
  cases aget cl k with
  | none => rfl
  | some pr => rfl

/-- The loop body of previous_version resolves each key per delta: a changed
field gets its new value, a deleted field is removed, an added field gets
its added value, and other fields keep their prior value. -/
theorem replayStep_aget (prev : Item) (v : VersionDoc) (k : String)
    (hna : (keys v.delta.added).Nodup) (hnc : (keys v.delta.changed).Nodup) :
    aget (VersioningModel.replayStep prev v) k =
      match aget v.delta.changed k with
      | some pr => some pr.2
      | Option.none =>
          if k ∈ keys v.delta.deleted then Option.none
          else match aget v.delta.added k with
               | some x => some x
               | Option.none => aget prev k := by
  unfold VersioningModel.replayStep
  rw [aget_asetfold _ _ _ hnc]
  cases hch : aget v.delta.changed k with
  | some pr => rfl
  | none =>
      simp only []
      rw [aget_delfold, aget_dupdate prev k hna]
      by_cases hd : k ∈ keys v.delta.deleted
      · rw [if_pos hd, if_pos hd]
      · rw [if_neg hd, if_neg hd]
        cases hx : aget v.delta.added k with
        | some x => rfl
        | none => rfl

/-- C1: previous_version replays the log entries carrying the entity id in
ascending timestamp order into an initially empty field map, wrapping a
non-empty result and yielding absent for an empty one: the empty log
replays to absent; the four-delta example replays to the map binding b to 3
and c to 4 with no a; each step applies added values and the new values of
changed as upserts and removes deleted keys; and on a log whose entries for
the id already stand in ascending timestamp order the replay folds them in
that order. -/
theorem VersioningModel.previous_version_spec :
    (∀ idv, VersioningModel.previous_version idv [] = Option.none)
  ∧ VersioningModel.previous_version (PyVal.int 7) exampleLog
      = some [("b", PyVal.int 3), ("c", PyVal.int 4)]
  ∧ aget ((VersioningModel.previous_version (PyVal.int 7) exampleLog).getD []) "a"
      = Option.none
  ∧ (∀ (prev : Item) (v : VersionDoc) (k : String),
        (keys v.delta.added).Nodup → (keys v.delta.changed).Nodup →
        aget (VersioningModel.replayStep prev v) k =
          match aget v.delta.changed k with
          | some pr => some pr.2
          | Option.none =>
              if k ∈ keys v.delta.deleted then Option.none
              else match aget v.delta.added k with
                   | some x => some x
                   | Option.none => aget prev k)
  ∧ (∀ (idv : PyVal) (log : List VersionDoc),
        List.Sorted tsLe (log.filter (fun v => v.switch_id == idv)) →
        VersioningModel.previous_version idv log =
          if ((log.filter (fun v => v.switch_id == idv)).foldl
                VersioningModel.replayStep []).isEmpty
          then Option.none
          else some ((log.filter (fun v => v.switch_id == idv)).foldl
                VersioningModel.replayStep [])) := by
  refine ⟨?_, by decide, by decide, ?_, ?_⟩
  · intro idv
    rfl
  · intro prev v k hna hnc
    exact replayStep_aget prev v k hna hnc
  · intro idv log hs
    have hsort := List.Sorted.insertionSort_eq hs
    unfold VersioningModel.previous_version
    simp only [hsort]
    by_cases he : (log.filter (fun v => v.switch_id == idv)).isEmpty
    · have hnil : log.filter (fun v => v.switch_id == idv) = [] :=
        List.isEmpty_iff.mp he
      simp [hnil]
    · simp [he]

/-- Witness for the previous_version theorem at a concrete input: the example
log is already sorted ascending by timestamp, so the replay folds its
entries in the given order. -/
theorem VersioningModel.previous_version_spec_witness :
    VersioningModel.previous_version (PyVal.int 7) exampleLog =
      if ((exampleLog.filter (fun v => v.switch_id == PyVal.int 7)).foldl
            VersioningModel.replayStep []).isEmpty
      then Option.none
      else some ((exampleLog.filter (fun v => v.switch_id == PyVal.int 7)).foldl
            VersioningModel.replayStep []) :=
  VersioningModel.previous_version_spec.2.2.2.2 (PyVal.int 7) exampleLog (by decide)

/-- Counterexample to C4: after save, save, remove of id 0 and another save of
an item without id, the allocated id equals the item count 1, which is
still in use by the second stored item, so the claimed freshness under any
prior sequence of save and remove operations fails. -/
theorem InMemoryStore.save_reuses_id_counterexample :
    (InMemoryStore.save
        (InMemoryStore.remove
          ((InMemoryStore.save
            ((InMemoryStore.save [] [("a", PyVal.int 1)]).2)
            [("b", PyVal.int 2)]).2)
          [("id", PyVal.int 0)])
        [("c", PyVal.int 3)]).1
      = PyVal.int 1
  ∧ PyVal.int 1 ∈ keys (InMemoryStore.remove
        ((InMemoryStore.save
          ((InMemoryStore.save [] [("a", PyVal.int 1)]).2)
          [("b", PyVal.int 2)]).2)
        [("id", PyVal.int 0)]) := by
  decide

/-- C4 as amended: on a store whose ids are all integers below the item count,
as holds after any prior sequence of saves of fresh items on an initially
empty store, saving a non-empty item without an id allocates the item count
as a previously unused id, and a get by that id returns the item plus the
id. -/
theorem InMemoryStore.save_fresh_id (items : StoreItems) (X : Item)
    (hids : ∀ p ∈ items, ∃ n : Nat, p.1 = PyVal.int n ∧ n < items.length)
    (hX : aget X "id" = Option.none) (hXne : X ≠ []) :
    (InMemoryStore.save items X).1 ∉ keys items
    ∧ InMemoryStore.get (InMemoryStore.save items X).2
        [("id", (InMemoryStore.save items X).1)]
      = some (withid X (InMemoryStore.save items X).1) := by
  have hid : (InMemoryStore.save items X).1 = PyVal.int items.length := by
    simp [InMemoryStore.save, hX]
  have hfresh : PyVal.int items.length ∉ keys items := by
    intro hmem
    rcases List.mem_map.mp hmem with ⟨p, hp, hp1⟩
    rcases hids p hp with ⟨n, hn, hlt⟩
    rw [hn] at hp1
    have : n = (items.length : Int) := by
      injection hp1
    omega
  have hnone : aget items (PyVal.int items.length) = Option.none :=
    (aget_eq_none_iff items (PyVal.int items.length)).mpr hfresh
  have hstore : (InMemoryStore.save items X).2
      = items ++ [(PyVal.int items.length, X)] := by
    simp [InMemoryStore.save, hX, adel_of_aget_none hX, aset_of_aget_none _ hnone]
  have hg : aget (items ++ [(PyVal.int items.length, X)]) (PyVal.int items.length)
      = some X := by
    rw [aget_append_of_none _ hnone]
    simp [aget]
  constructor
  · rw [hid]
    exact hfresh
  · rw [hid, hstore]
    simp [InMemoryStore.get, InMemoryStore.filter, aget, hg, hXne]

/-- Witness for the amended save theorem at a concrete input: the empty store
satisfies the id hypotheses. -/
theorem InMemoryStore.save_fresh_id_witness :
    (InMemoryStore.save [] [("a", PyVal.int 1)]).1 ∉ keys ([] : StoreItems)
    ∧ InMemoryStore.get (InMemoryStore.save [] [("a", PyVal.int 1)]).2
        [("id", (InMemoryStore.save [] [("a", PyVal.int 1)]).1)]
      = some (withid [("a", PyVal.int 1)] (InMemoryStore.save [] [("a", PyVal.int 1)]).1) :=
  InMemoryStore.save_fresh_id [] [("a", PyVal.int 1)] (by simp) (by decide) (by decide)

/-- C6: a filter dict carrying an id takes the id fast path and is equivalent
to filtering by the id alone, both for the in-memory filter and get and for
the where clause the relational backend builds. -/
theorem Store.filter_id_precedence :
    (∀ (items : StoreItems) (kwargs : Item) (idv : PyVal),
        aget kwargs "id" = some idv → idv ≠ PyVal.none →
        InMemoryStore.filter items kwargs = InMemoryStore.filter items [("id", idv)])
  ∧ (∀ (items : StoreItems) (kwargs : Item) (idv : PyVal),
        aget kwargs "id" = some idv → idv ≠ PyVal.none →
        InMemoryStore.get items kwargs = InMemoryStore.get items [("id", idv)])
  ∧ (∀ (kwargs : Item) (idv : PyVal),
        aget kwargs "id" = some idv → idv ≠ PyVal.none →
        SQLAlchemyStore.matchPred kwargs = SQLAlchemyStore.matchPred [("id", idv)]) := by
  have hfil : ∀ (items : StoreItems) (kwargs : Item) (idv : PyVal),
      aget kwargs "id" = some idv → idv ≠ PyVal.none →
      InMemoryStore.filter items kwargs = InMemoryStore.filter items [("id", idv)] := by
    intro items kwargs idv hk hne
    unfold InMemoryStore.filter
    simp [hk, hne, aget]
  refine ⟨hfil, ?_, ?_⟩
  · intro items kwargs idv hk hne
    unfold InMemoryStore.get
    rw [hfil items kwargs idv hk hne]
  · intro kwargs idv hk hne
    unfold SQLAlchemyStore.matchPred
    simp [hk, hne, aget]

/-- Witness for the id precedence theorem at a concrete input: an extra filter
key next to the id changes nothing. -/
theorem Store.filter_id_precedence_witness :
    InMemoryStore.filter [(PyVal.int 0, [("a", PyVal.int 1)])]
        [("id", PyVal.int 0), ("b", PyVal.int 9)]
      = InMemoryStore.filter [(PyVal.int 0, [("a", PyVal.int 1)])]
        [("id", PyVal.int 0)] :=
  Store.filter_id_precedence.1 [(PyVal.int 0, [("a", PyVal.int 1)])]
    [("id", PyVal.int 0), ("b", PyVal.int 9)] (PyVal.int 0) (by decide) (by decide)

/-- Counterexample to C5: with defaults binding a to 2 and a lookup binding a
to 1, the created item holds the default value, so the second identical
call does not find it and reports created true again. -/
theorem BaseStore.get_or_create_not_idempotent_counterexample :
    (BaseStore.get_or_create [] [("a", PyVal.int 2)] [("a", PyVal.int 1)]).1.2 = true
  ∧ (BaseStore.get_or_create
      (BaseStore.get_or_create [] [("a", PyVal.int 2)] [("a", PyVal.int 1)]).2
      [("a", PyVal.int 2)] [("a", PyVal.int 1)]).1.2 = true := by
  decide

theorem filter_aset_single {κ β : Type} [DecidableEq κ] (d : List (κ × β)) (k : κ)
    (v : β) (pred : κ × β → Bool)
    (hall : ∀ p ∈ d, pred p = false) (hnew : pred (k, v) = true) :
    (aset d k v).filter pred = [(k, v)] := by
  induction d with
  | nil => simp [aset, List.filter, hnew]
  | cons q rest ih =>
      obtain ⟨k', v'⟩ := q
      by_cases hk : k' = k
      · subst hk
        have hrest : rest.filter pred = [] :=
          List.filter_eq_nil_iff.mpr
            (fun p hp => by simp [hall p (List.mem_cons_of_mem _ hp)])
        simp [aset, List.filter_cons, hnew, hrest]
      · have hhead : pred (k', v') = false :=
          hall (k', v') (List.mem_cons_self ..)
        simp [aset, hk, List.filter_cons, hhead,
          ih (fun p hp => hall p (List.mem_cons_of_mem _ hp))]

/-- C5 as amended: a found item is returned unchanged with created false; and
when no stored item matches the lookup, the defaults do not override any
lookup key with a different value, neither dict carries an id and the dicts
have no duplicate keys, then the first call creates the merged item with
defaults winning and created true, and the second identical call finds that
very item, returns it equal with created false and leaves the store
unchanged. -/
theorem BaseStore.get_or_create_spec :
    (∀ (items : StoreItems) (defaults lookup item : Item),
        InMemoryStore.get items lookup = some item →
        BaseStore.get_or_create items defaults lookup = ((item, false), items))
  ∧ (∀ (items : StoreItems) (defaults lookup : Item),
        InMemoryStore.get items lookup = Option.none →
        (∀ kv ∈ defaults,
          aget lookup kv.1 = Option.none ∨ aget lookup kv.1 = some kv.2) →
        (keys lookup).Nodup → (keys defaults).Nodup →
        aget lookup "id" = Option.none → aget defaults "id" = Option.none →
        (BaseStore.get_or_create items defaults lookup).1.2 = true
        ∧ (BaseStore.get_or_create (BaseStore.get_or_create items defaults lookup).2
            defaults lookup).1.2 = false
        ∧ (BaseStore.get_or_create (BaseStore.get_or_create items defaults lookup).2
            defaults lookup).1.1 = (BaseStore.get_or_create items defaults lookup).1.1
        ∧ (BaseStore.get_or_create (BaseStore.get_or_create items defaults lookup).2
            defaults lookup).2 = (BaseStore.get_or_create items defaults lookup).2
        ∧ (∀ k, k ≠ "id" →
            aget (BaseStore.get_or_create items defaults lookup).1.1 k
              = match aget defaults k with
                | some v => some v
                | Option.none => aget lookup k)) := by
  constructor
  · intro items defaults lookup item h
    unfold BaseStore.get_or_create
    rw [h]
  · intro items defaults lookup h0 hc hL hD hidL hidD
    have hmid : aget (dupdate lookup defaults) "id" = Option.none := by
      rw [aget_dupdate lookup "id" hD]
      simp [hidD, hidL]
    have hsave1 : (InMemoryStore.save items (dupdate lookup defaults)).1
        = PyVal.int items.length := by
      simp [InMemoryStore.save, hmid]
    have hsave2 : (InMemoryStore.save items (dupdate lookup defaults)).2
        = aset items (PyVal.int items.length) (dupdate lookup defaults) := by
      simp [InMemoryStore.save, hmid, adel_of_aget_none hmid]
    have hr1 : BaseStore.get_or_create items defaults lookup
        = ((dupdate lookup defaults ++ [("id", PyVal.int items.length)], true),
           aset items (PyVal.int items.length) (dupdate lookup defaults)) := by
      unfold BaseStore.get_or_create
      rw [h0]
      simp only [hsave1, hsave2, adel_of_aget_none hmid, withid,
        aset_of_aget_none _ hmid]
    have hrest : adel lookup "id" = lookup := adel_of_aget_none hidL
    have hfilter0 : InMemoryStore.filter items lookup
        = (items.filter (fun p => InMemoryStore.matchItem p.2 lookup)).map
            (fun p => withid p.2 p.1) := by
      unfold InMemoryStore.filter
      simp [hidL, hrest]
    have hfilter_items :
        items.filter (fun p => InMemoryStore.matchItem p.2 lookup) = [] := by
      have h0' := h0
      unfold InMemoryStore.get at h0'
      rw [hfilter0] at h0'
      rw [List.head?_eq_none_iff, List.map_eq_nil_iff] at h0'
      exact h0'
    have hmatch : InMemoryStore.matchItem (dupdate lookup defaults) lookup = true := by
      unfold InMemoryStore.matchItem
      rw [List.all_eq_true]
      intro kv hkv
      have hlk : aget lookup kv.1 = some kv.2 := aget_eq_some_of_mem_nodup hL hkv
      cases hd : aget defaults kv.1 with
      | none =>
          simp [aget_dupdate lookup kv.1 hD, hd, hlk]
      | some dv =>
          have hdm := mem_of_aget_eq_some hd
          rcases hc (kv.1, dv) hdm with hnone | hsome
          · rw [hlk] at hnone
            cases hnone
          · rw [hlk] at hsome
            have hdve : dv = kv.2 := by
              injection hsome with h1
              exact h1.symm
            simp [aget_dupdate lookup kv.1 hD, hd, hdve]
    have hall : ∀ p ∈ items, InMemoryStore.matchItem p.2 lookup = false := by
      intro p hp
      exact Bool.eq_false_iff.mpr (List.filter_eq_nil_iff.mp hfilter_items p hp)
    have hfilter2 : InMemoryStore.filter
        (aset items (PyVal.int items.length) (dupdate lookup defaults)) lookup
        = [dupdate lookup defaults ++ [("id", PyVal.int items.length)]] := by
      unfold InMemoryStore.filter
      simp only [hidL, hrest]
      rw [filter_aset_single items (PyVal.int items.length) (dupdate lookup defaults)
        (fun p => InMemoryStore.matchItem p.2 lookup) hall hmatch]
      simp [withid, aset_of_aget_none _ hmid]
    have hget2 : InMemoryStore.get
        (aset items (PyVal.int items.length) (dupdate lookup defaults)) lookup
        = some (dupdate lookup defaults ++ [("id", PyVal.int items.length)]) := by
      unfold InMemoryStore.get
      rw [hfilter2]
      rfl
    have hr2 : BaseStore.get_or_create
        (aset items (PyVal.int items.length) (dupdate lookup defaults))
        defaults lookup
        = ((dupdate lookup defaults ++ [("id", PyVal.int items.length)], false),
           aset items (PyVal.int items.length) (dupdate lookup defaults)) := by
      unfold BaseStore.get_or_create
      rw [hget2]
    refine ⟨by rw [hr1], ?_, ?_, ?_, ?_⟩
    · rw [hr1]
      simp only []
      rw [hr2]
    · rw [hr1]
      simp only []
      rw [hr2]
    · rw [hr1]
      simp only []
      rw [hr2]
    · intro k hk
      rw [hr1]
      simp only []
      have happ : aget (dupdate lookup defaults ++ [("id", PyVal.int items.length)]) k
          = aget (dupdate lookup defaults) k := by
        cases hm2 : aget (dupdate lookup defaults) k with
        | some v => exact aget_append_of_some _ hm2
        | none =>
            rw [aget_append_of_none _ hm2]
            simp [aget, Ne.symm hk]
      rw [happ, aget_dupdate lookup k hD]
      cases aget defaults k with
      | some v => rfl
      | none => rfl

/-- Witness for the get_or_create theorem at a concrete input with disjoint
defaults and lookup on the empty store. -/
theorem BaseStore.get_or_create_spec_witness :
    (BaseStore.get_or_create [] [("status", PyVal.int 42)]
        [("key", PyVal.str "foo")]).1.2 = true
    ∧ (BaseStore.get_or_create
        (BaseStore.get_or_create [] [("status", PyVal.int 42)]
          [("key", PyVal.str "foo")]).2
        [("status", PyVal.int 42)] [("key", PyVal.str "foo")]).1.2 = false :=
  ⟨(BaseStore.get_or_create_spec.2 [] [("status", PyVal.int 42)]
      [("key", PyVal.str "foo")] (by decide) (by decide) (by decide) (by decide)
      (by decide) (by decide)).1,
   (BaseStore.get_or_create_spec.2 [] [("status", PyVal.int 42)]
      [("key", PyVal.str "foo")] (by decide) (by decide) (by decide) (by decide)
      (by decide) (by decide)).2.1⟩

/-- C7: the dedup guard of add_condition compares the bare condition string
against the stored two-element entries, so it never fires; two identical
calls on an empty value leave two copies of the same entry in the field
list. -/
theorem Switch.add_condition_appends_duplicate :
    Switch.add_condition (Switch.add_condition [] "ns" "f" "c" false)
        "ns" "f" "c" false
      = [("ns", [("f", [CVal.vpair "i" "c", CVal.vpair "i" "c"])])] := by
  decide

/-- Counterexample to C8: on a value already holding the payload, the add
appends a duplicate and the remove then deletes both entries and prunes the
field and the namespace, so the round trip empties the value instead of
restoring it. -/
theorem Switch.add_remove_roundtrip_counterexample :
    Switch.remove_condition
        (Switch.add_condition [("ns", [("f", [CVal.vpair "i" "c"])])]
          "ns" "f" "c" false)
        "ns" "f" "c"
      = ([] : SwitchValue)
  ∧ ([] : SwitchValue) ≠ [("ns", [("f", [CVal.vpair "i" "c"])])] := by
  decide

/-- C8 as amended: add_condition followed by remove_condition with the same
payload restores the value map provided that no entry with that payload is
already present in the field list, the entries there are flagged pairs, the
list is non-empty when present, and the namespace sub-map is non-empty when
present; the pruning then removes exactly the sub-maps the add created. -/
theorem Switch.add_remove_roundtrip (value : SwitchValue) (ns f c : String)
    (excl : Bool)
    (h : aget value ns = Option.none
       ∨ (∃ nsm, aget value ns = some nsm ∧ nsm ≠ []
            ∧ aget nsm f = Option.none)
       ∨ (∃ nsm lst, aget value ns = some nsm ∧ aget nsm f = some lst ∧ lst ≠ []
            ∧ ∀ cv ∈ lst, ∃ fl pl, cv = CVal.vpair fl pl ∧ pl ≠ c)) :
    Switch.remove_condition (Switch.add_condition value ns f c excl) ns f c
      = value := by
  rcases h with hns | ⟨nsm, hns, hne, hf⟩ | ⟨nsm, lst, hns, hf, hlne, hall⟩
  · have hadd : Switch.add_condition value ns f c excl
        = aset value ns [(f, [CVal.vpair (if excl then EXCLUDE else INCLUDE) c])] := by
      simp [Switch.add_condition, hns, aget_aset_self, aset_aset, aset, aget]
    rw [hadd]
    have hrem : Switch.remove_condition
        (aset value ns [(f, [CVal.vpair (if excl then EXCLUDE else INCLUDE) c])])
        ns f c
        = adel (aset value ns
            [(f, [CVal.vpair (if excl then EXCLUDE else INCLUDE) c])]) ns := by
      unfold Switch.remove_condition
      rw [aget_aset_self]
      simp [aget, adel, aset, List.filter]
    rw [hrem, aset_of_aget_none _ hns, adel_append, adel_of_aget_none hns]
    simp [adel]
  · have hadd : Switch.add_condition value ns f c excl
        = aset value ns
            (aset nsm f [CVal.vpair (if excl then EXCLUDE else INCLUDE) c]) := by
      simp [Switch.add_condition, hns, hf, aget_aset_self, aset_aset]
    rw [hadd]
    unfold Switch.remove_condition
    rw [aget_aset_self]
    simp only []
    rw [aget_aset_self]
    simp only []
    have hfilter : List.filter
        (fun cv => match cv with
          | CVal.vpair _ p => decide (p ≠ c)
          | CVal.vstr _ => true)
        [CVal.vpair (if excl then EXCLUDE else INCLUDE) c] = [] := by
      simp [List.filter]
    have hprune : adel
        (aset (aset nsm f [CVal.vpair (if excl then EXCLUDE else INCLUDE) c]) f [])
        f = nsm := by
      rw [aset_aset, aset_of_aget_none _ hf, adel_append, adel_of_aget_none hf]
      simp [adel]
    simp only [hfilter, List.isEmpty_nil, if_true, hprune]
    have hnsne : nsm.isEmpty = false := by
      rw [Bool.eq_false_iff]
      intro ht
      exact hne (List.isEmpty_iff.mp ht)
    simp only [hnsne, Bool.false_eq_true, if_false]
    rw [aset_aset]
    exact aset_eq_self hns
  · have hmemf : CVal.vstr c ∉ lst := by
      intro hmem
      rcases hall _ hmem with ⟨fl, pl, he, _⟩
      cases he
    have hcont : lst.contains (CVal.vstr c) = false := by
      rw [Bool.eq_false_iff]
      intro ht
      exact hmemf (contains_iff_mem_cval.mp ht)
    have hadd : Switch.add_condition value ns f c excl
        = aset value ns (aset nsm f
            (lst ++ [CVal.vpair (if excl then EXCLUDE else INCLUDE) c])) := by
      simp [Switch.add_condition, hns, hf, hmemf]
    rw [hadd]
    unfold Switch.remove_condition
    rw [aget_aset_self]
    simp only []
    rw [aget_aset_self]
    simp only []
    have hkeep : List.filter
        (fun cv => match cv with
          | CVal.vpair _ p => decide (p ≠ c)
          | CVal.vstr _ => true) lst = lst := by
      rw [List.filter_eq_self]
      intro cv hcv
      rcases hall cv hcv with ⟨fl, pl, he, hplc⟩
      subst he
      simp [hplc]
    have hfilter : List.filter
        (fun cv => match cv with
          | CVal.vpair _ p => decide (p ≠ c)
          | CVal.vstr _ => true)
        (lst ++ [CVal.vpair (if excl then EXCLUDE else INCLUDE) c]) = lst := by
      rw [List.filter_append, hkeep]
      simp [List.filter]
    have hlstne : lst.isEmpty = false := by
      rw [Bool.eq_false_iff]
      intro ht
      exact hlne (List.isEmpty_iff.mp ht)
    simp only [hfilter, hlstne, Bool.false_eq_true, if_false]
    rw [aset_aset, aset_aset, aset_eq_self hf]
    exact aset_eq_self hns

/-- Witness for the round trip theorem at a concrete input: adding and
removing a condition on a fresh namespace restores the empty value. -/
theorem Switch.add_remove_roundtrip_witness :
    Switch.remove_condition
        (Switch.add_condition [] "sw" "percent" "0-50" false)
        "sw" "percent" "0-50"
      = ([] : SwitchValue) :=
  Switch.add_remove_roundtrip [] "sw" "percent" "0-50" false (Or.inl (by decide))

/-- Counterexample to C9: on an empty history, list_versions returns the dict
with an empty versions entry and in particular not the empty sequence. -/
theorem Switch.list_versions_empty_counterexample :
    Switch.list_versions (PyVal.int 0) [] = ListVersionsResult.dictEmptyVersions
  ∧ Switch.list_versions (PyVal.int 0) [] ≠ ListVersionsResult.versions [] := by
  decide

/-- C9 as amended: with no history, list_versions returns the dict with an
empty versions entry; with history, it returns the log entries of the
entity as a sequence sorted by descending timestamp. -/
theorem Switch.list_versions_spec :
    (∀ (idv : PyVal) (log : List VersionDoc),
        log.filter (fun v => v.switch_id == idv) = [] →
        Switch.list_versions idv log = ListVersionsResult.dictEmptyVersions)
  ∧ (∀ (idv : PyVal) (log : List VersionDoc),
        log.filter (fun v => v.switch_id == idv) ≠ [] →
        Switch.list_versions idv log
          = ListVersionsResult.versions
              (List.insertionSort tsGe (log.filter (fun v => v.switch_id == idv)))
        ∧ (List.insertionSort tsGe (log.filter (fun v => v.switch_id == idv))).Perm
            (log.filter (fun v => v.switch_id == idv))
        ∧ List.Sorted tsGe
            (List.insertionSort tsGe (log.filter (fun v => v.switch_id == idv)))) := by
  constructor
  · intro idv log h
    simp [Switch.list_versions, h]
  · intro idv log h
    have hne : (log.filter (fun v => v.switch_id == idv)).isEmpty = false := by
      rw [Bool.eq_false_iff]
      intro ht
      exact h (List.isEmpty_iff.mp ht)
    refine ⟨?_, List.perm_insertionSort tsGe _, List.sorted_insertionSort tsGe _⟩
    simp [Switch.list_versions, hne]

/-- Witness for the list_versions theorem at a concrete input: a log holding
only entries of another entity counts as no history. -/
theorem Switch.list_versions_spec_witness :
    Switch.list_versions (PyVal.int 5)
        [{ switch_id := PyVal.int 4, timestamp := 1,
           delta := { added := [], deleted := [], changed := [] }, extra := [] }]
      = ListVersionsResult.dictEmptyVersions :=
  Switch.list_versions_spec.1 (PyVal.int 5)
    [{ switch_id := PyVal.int 4, timestamp := 1,
       delta := { added := [], deleted := [], changed := [] }, extra := [] }]
    (by decide)

/-- C10: Model.get hands the whole filter dict to the store get as one
positional argument, whose signature takes keyword filters only, so the
call raises a TypeError for every input, including the prior state fetch
of Model.save on an entity with a truthy id. -/
theorem Model.get_raises_typeError :
    (∀ (items : StoreItems) (kwargs : Item),
        Model.get items kwargs = PyResult.typeError)
  ∧ (∀ (items : StoreItems) (idv : PyVal), pyTruthy idv = true →
        Model.saveFetchPrevious items (some idv) = PyResult.typeError) := by
  constructor
  · intro items kwargs
    rfl
  · intro items idv h
    simp [Model.saveFetchPrevious, Model.get, BaseStore.getCallable, h]

/-- Witness for the TypeError theorem at a concrete input: the prior state
fetch for id 5 raises. -/
theorem Model.get_raises_typeError_witness :
    Model.saveFetchPrevious [] (some (PyVal.int 5)) = PyResult.typeError :=
  Model.get_raises_typeError.2 [] (PyVal.int 5) (by decide)
